import Mathlib

/-!
Verification of the ScrapeV2 visual / attribute search core.

This file shallowly embeds the search core of the scrapelight backend:

* ml_worker/services/database_service.py
  (DatabaseManager.get_all_features, get_product_by_product_id_and_article,
   get_product_by_specifications, get_public_url_by_path)
* ml_worker/services/search_service.py
  (SearchService._load_feature_cache and SearchService.predict_image)
* ml_worker/services/processing_service.py
  (FeatureExtractor.extract_single_image_features, modelled by its outcome)

Python strings are embedded as lists of characters, numpy float arrays as
lists of real numbers, database rows as structures, and exceptions as
Except / Option values.  Fallible byte-to-value conversions inside
get_all_features are modelled by Option-valued record fields.
-/

namespace ScrapeV2

/-! ## Strings as character lists -/

/-- Python strings are embedded as lists of characters. -/
abbrev Str := List Char

/-- The sentinel StoresModel.All.value = "all" (shared/schemas.py). -/
def allStore : Str := "all".toList

/-- The sentinel label used by predict_image when label extraction fails. -/
def unknownLabel : Str := "unknown".toList

/-- Embedding of Python s.split(sep) for a single-character separator:
n separators yield n+1 (possibly empty) pieces. -/
def splitOnChar (sep : Char) : Str → List Str
  | [] => [[]]
  | c :: rest =>
    match splitOnChar sep rest with
    | [] => if c = sep then [[], []] else [[c]]
    | h :: t => if c = sep then [] :: h :: t else (c :: h) :: t

/-- Embedding of the label derivation in predict_image:
str(image_path_db).split('\\')[1], with the surrounding try/except
turning an out-of-range index into the sentinel "unknown". -/
def extractLabel (path : Str) : Str :=
  match splitOnChar '\\' path with
  | _ :: x :: _ => x
  | _ => unknownLabel

/-- Case folding used to embed SQL ilike matching. -/
def lowerStr (s : Str) : Str := s.map Char.toLower

/-- Boolean prefix test on character lists. -/
def isPrefixB : Str → Str → Bool
  | [], _ => true
  | _ :: _, [] => false
  | a :: u, b :: v => a == b && isPrefixB u v

/-- Boolean substring test on character lists. -/
def isInfixB : Str → Str → Bool
  | n, [] => isPrefixB n []
  | n, _h :: t => isPrefixB n (_h :: t) || isInfixB n t

/-- Declarative substring relation: needle occurs contiguously inside hay. -/
def IsSubstr (needle hay : Str) : Prop := ∃ s t, hay = s ++ (needle ++ t)

/-- Literal case-insensitive substring test.  This is what an ILIKE
'%needle%' filter amounts to when the needle contains no LIKE wildcard
characters; the full wildcard-aware embedding of the query filters is
ciLike below. -/
def ciSubstr (hay needle : Str) : Bool := isInfixB (lowerStr needle) (lowerStr hay)

/-- The Prop-level reading of ciSubstr. -/
def CiSubstr (hay needle : Str) : Prop := IsSubstr (lowerStr needle) (lowerStr hay)

/-- SQL LIKE pattern matching against a whole text, fuelled by the sum of
the lengths (each step consumes a pattern or a text element, so the fuel
never runs out when it starts at that sum).  A percent sign matches any,
possibly empty, character sequence; an underscore matches any single
character; every other pattern character matches itself.  This is the
no-escape reading of an unescaped pattern, as on SQLite; PostgreSQL
additionally treats a backslash inside the pattern as an escape
character, which this embedding does not model. -/
def likeMatchesAux : Nat → Str → Str → Bool
  | _, [], t => t.isEmpty
  | 0, _ :: _, _ => false
  | fuel + 1, p :: ps, [] => if p == '%' then likeMatchesAux fuel ps [] else false
  | fuel + 1, p :: ps, d :: ts =>
    if p == '%' then likeMatchesAux fuel ps (d :: ts) || likeMatchesAux fuel (p :: ps) ts
    else (p == '_' || p == d) && likeMatchesAux fuel ps ts

/-- SQL LIKE matching of a pattern against a whole text. -/
def likeMatches (p t : Str) : Bool := likeMatchesAux (p.length + t.length) p t

/-- Declarative semantics of SQL LIKE matching: a percent sign either
matches nothing or absorbs one text character and continues; any other
pattern character consumes exactly one text character, which it must
equal unless the pattern character is the underscore wildcard. -/
inductive LikeSem : Str → Str → Prop where
  | nil : LikeSem [] []
  | pct_skip (ps t : Str) : LikeSem ps t → LikeSem ('%' :: ps) t
  | pct_take (ps t : Str) (c : Char) :
      LikeSem ('%' :: ps) t → LikeSem ('%' :: ps) (c :: t)
  | one (p c : Char) (ps ts : Str) : p = '_' ∨ p = c → p ≠ '%' →
      LikeSem ps ts → LikeSem (p :: ps) (c :: ts)

/-- Embedding of SQL column.ilike('%piece%') as executed by the query:
case folding of both operands, then LIKE matching of the pattern built by
surrounding the piece with percent signs.  A piece containing the LIKE
wildcards underscore or percent keeps their wildcard meaning, as the
source interpolates the piece into the pattern unescaped. -/
def ciLike (hay piece : Str) : Bool :=
  likeMatches ('%' :: (lowerStr piece ++ ['%'])) (lowerStr hay)

/-- The Prop-level reading of ciLike through the declarative LIKE
semantics. -/
def CiLike (hay piece : Str) : Prop :=
  LikeSem ('%' :: (lowerStr piece ++ ['%'])) (lowerStr hay)

/-- Characters removed by Python str.strip(). -/
def isPySpace (c : Char) : Bool :=
  c == ' ' || c == '\t' || c == '\n' || c == '\r' || c == '\x0b' || c == '\x0c'

/-- Embedding of Python str.strip(). -/
def trim (s : Str) : Str :=
  ((s.dropWhile isPySpace).reverse.dropWhile isPySpace).reverse

/-- ASCII letter class of the dimension-token regex [A-Za-z]. -/
def isAlphaCh (c : Char) : Bool := ('A' ≤ c && c ≤ 'Z') || ('a' ≤ c && c ≤ 'z')

/-- ASCII digit class of the dimension-token regex [0-9]. -/
def isDigitCh (c : Char) : Bool := '0' ≤ c && c ≤ '9'

/-- Tail of a match of the regex [A-Za-z]: ?[0-9]+ after the letter and
the colon: an optional space, then one or more (greedy) digits.  The
optional-space branch needs no further backtracking: if a space follows
the colon but no digit follows the space, the spaceless alternative fails
as well.  Returns the whole matched token and the remaining input. -/
def matchDimTokenTail (a : Char) : Str → Option (Str × Str)
  | [] => none
  | c :: r2 =>
    if c == ' ' then
      let ds := r2.takeWhile isDigitCh
      if ds.isEmpty then none
      else some (a :: ':' :: ' ' :: ds, r2.dropWhile isDigitCh)
    else
      let ds := (c :: r2).takeWhile isDigitCh
      if ds.isEmpty then none
      else some (a :: ':' :: ds, (c :: r2).dropWhile isDigitCh)

/-- Head of the regex match: a letter followed by a colon, then the
optional-space-and-digits tail. -/
def matchDimToken : Str → Option (Str × Str)
  | a :: b :: rest =>
    if isAlphaCh a && (b == ':') then matchDimTokenTail a rest else none
  | _ => none

/-- Left-to-right non-overlapping scan, fuelled by the input length
(each step consumes at least one character, so the fuel never runs out). -/
def findallDimsAux : Nat → Str → List Str
  | 0, _ => []
  | _ + 1, [] => []
  | fuel + 1, c :: rest =>
    match matchDimToken (c :: rest) with
    | some (tok, after) => tok :: findallDimsAux fuel after
    | none => findallDimsAux fuel rest

/-- Embedding of re.findall(r"[A-Za-z]: ?[0-9]+", dimensions). -/
def findallDims (s : Str) : List Str := findallDimsAux s.length s

/-! ## Catalog data model -/

/-- Embedding of the Product ORM row (shared/db_models/product.py).
The imagePaths field carries the local_path values of the related
ProductImages rows, in relationship order. -/
structure Product where
  id : Nat
  product_id : Str
  product_title : Str
  article : Str
  material : Str
  bulb_type : Str
  category : Str
  dimensions : Str
  url : Str
  store : Str
  imagePaths : List Str
deriving DecidableEq

/-- Embedding of the ProductImages ORM row (local_path, image_url). -/
structure ProductImage where
  local_path : Str
  image_url : Str
deriving DecidableEq

/-- A stored image_features row as seen by get_all_features, after the
fallible byte conversions: features is none when np.frombuffer raises on
the stored bytes, image_path is none when bytes.decode('utf-8') raises. -/
structure RawRecord where
  features : Option (List ℝ)
  product_id : Int
  image_path : Option Str

/-- The dictionary returned by DatabaseManager.get_all_features. -/
structure FeaturesDict where
  features : List (List ℝ)
  labels : List Int
  paths : List Str

/-! ## database_service.py -/

/-- One iteration of the record loop in get_all_features.  The feature
array and the label are appended before the image_path conversion is
attempted, exactly as in the source: a path-decode failure is caught by
the per-record except handler only after those two appends happened. -/
def processRecord (acc : List (List ℝ) × List Int × List Str) (r : RawRecord) :
    List (List ℝ) × List Int × List Str :=
  match r.features with
  | none => acc
  | some f =>
    match r.image_path with
    | none => (acc.1 ++ [f], acc.2.1 ++ [r.product_id], acc.2.2)
    | some p => (acc.1 ++ [f], acc.2.1 ++ [r.product_id], acc.2.2 ++ [p])

/-- Whether np.array(all_features) yields a proper 2-D matrix: all rows
share one length.  On ragged input np.array raises and the surrounding
except handler of get_all_features returns the empty dictionary. -/
def uniformRows : List (List ℝ) → Bool
  | [] => true
  | f :: rest => rest.all (fun g => g.length == f.length)

/-- Embedding of DatabaseManager.get_all_features. -/
def get_all_features (records : List RawRecord) : FeaturesDict :=
  if records.length = 0 then ⟨[], [], []⟩
  else
    let acc := records.foldl processRecord ([], [], [])
    if uniformRows acc.1 then ⟨acc.1, acc.2.1, acc.2.2⟩ else ⟨[], [], []⟩

/-- Embedding of DatabaseManager.get_product_by_product_id_and_article:
the store filter is applied unless the store equals "all", then the first
row matching both product_id and article is returned. -/
def get_product_by_product_id_and_article (catalog : List Product)
    (pid article store : Str) : Option Product :=
  (catalog.filter (fun p =>
    (store == allStore || p.store == store)
      && p.product_id == pid && p.article == article)).head?

/-- Embedding of DatabaseManager.get_public_url_by_path: image_url of the
first product_images row whose local_path equals the argument; the
internal except handler turns a missing row into None. -/
def get_public_url_by_path (images : List ProductImage) (path : Str) : Option Str :=
  ((images.filter (fun im => im.local_path == path)).head?).map (fun im => im.image_url)

/-- The conjunction of row filters built by get_product_by_specifications.
Absent (None or empty) criteria are embedded as the empty string, which
Python truthiness treats identically. -/
def specMatches (details bulb dims cat store : Str) (p : Product) : Bool :=
  (store == allStore || p.store == store)
  && (bulb == ([] : Str) || ciLike p.bulb_type bulb)
  && (dims == ([] : Str) || (findallDims dims).all (fun t =>
        trim t == ([] : Str) || ciLike p.dimensions (trim t)))
  && (cat == ([] : Str) || ciLike p.url cat)
  && (details == ([] : Str) || (splitOnChar ' ' details).all (fun t =>
        trim t == ([] : Str) || ciLike p.material (trim t)))

/-- The rows surviving the chained query filters, in catalog order. -/
def specFiltered (catalog : List Product) (details bulb dims cat store : Str) :
    List Product :=
  catalog.filter (specMatches details bulb dims cat store)

/-- One result dictionary of the attribute search, similarity fixed at 1.0. -/
structure SpecMatch where
  product_label : Str
  similarity : ℝ
  matching_image_path : Option Str
  product_id : Nat
  url : Str
  article : Str
  product_title : Str
  bulb_type : Str
  dimensions : Str
  image_url : Option Str

/-- Result-row construction of get_product_by_specifications. -/
def mkSpecResult (images : List ProductImage) (p : Product) : SpecMatch :=
  { product_label := p.article ++ '_' :: p.product_id
    similarity := 1
    matching_image_path := p.imagePaths.head?
    product_id := p.id
    url := p.url
    article := p.article
    product_title := p.product_title
    bulb_type := p.bulb_type
    dimensions := p.dimensions
    image_url := match p.imagePaths.head? with
      | none => none
      | some q => get_public_url_by_path images q }

/-- Embedding of DatabaseManager.get_product_by_specifications. -/
def get_product_by_specifications (catalog : List Product)
    (images : List ProductImage) (details bulb dims cat store : Str) :
    List SpecMatch :=
  (specFiltered catalog details bulb dims cat store).map (mkSpecResult images)

/-! ## Vector arithmetic (numpy operations over real-valued rows) -/

/-- Dot product of two rows, truncating at the shorter one; predict_image
only applies it to rows whose lengths were checked to agree. -/
def dot : List ℝ → List ℝ → ℝ
  | a :: u, b :: v => a * b + dot u v
  | _, _ => 0

/-- Embedding of np.linalg.norm for one row. -/
noncomputable def l2norm (v : List ℝ) : ℝ := Real.sqrt (dot v v)

/-- Row norm after the zero-clamp norms[norms == 0] = 1.0 of
SearchService._load_feature_cache. -/
noncomputable def clampNorm (v : List ℝ) : ℝ :=
  if l2norm v = 0 then 1 else l2norm v

/-- One row of the cached normalized feature matrix features / norms. -/
noncomputable def normalizeRow (v : List ℝ) : List ℝ :=
  v.map (fun x => x / clampNorm v)

/-- Query normalization q / q_norm of predict_image (applied only after
the q_norm == 0 early return). -/
noncomputable def normalizeVec (v : List ℝ) : List ℝ :=
  v.map (fun x => x / l2norm v)

/-- Embedding of similarities = np.dot(matrix, q). -/
def simsOf (matrix : List (List ℝ)) (q : List ℝ) : List ℝ :=
  matrix.map (fun r => dot r q)

/-! ## Candidate selection (argpartition + argsort of the pool) -/

/-- Insert an index into a list of indices sorted descending by key. -/
noncomputable def insertDesc (key : Nat → ℝ) (i : Nat) : List Nat → List Nat
  | [] => [i]
  | j :: rest => if key j ≤ key i then i :: j :: rest else j :: insertDesc key i rest

/-- Indices sorted descending by key (insertion sort). -/
noncomputable def argsortDesc (key : Nat → ℝ) : List Nat → List Nat
  | [] => []
  | i :: rest => insertDesc key i (argsortDesc key rest)

/-- Embedding of the candidate selection of predict_image:
pool_size = min(len(similarities), max(100, top_k * 5)), then
np.argpartition(similarities, -pool_size)[-pool_size:] followed by a full
descending argsort of the selected pool.  The composite is embedded as a
full descending argsort of all indices truncated to pool_size, which has
the same specification (the pool holds pool_size top-scoring rows, sorted
descending); numpy fixes no particular order among equal scores. -/
noncomputable def topIndices (sims : List ℝ) (topK : Nat) : List Nat :=
  (argsortDesc (fun i => sims.getD i 0) (List.range sims.length)).take
    (min sims.length (max 100 (5 * topK)))

/-! ## predict_image -/

/-- A result dictionary appended to unique_products by predict_image. -/
structure MatchEntry where
  product_label : Str
  similarity : ℝ
  matching_image_path : Str
  product_id : Nat
  url : Str
  article : Str
  product_title : Str
  bulb_type : Str
  dimensions : Str
  image_url : Option Str

/-- Exceptions of predict_image that reach its outermost except handler. -/
inductive CoreErr where
  | extraction
  | shape
  | pathIndex
deriving DecidableEq

/-- Per-candidate resolution in the ranking walk: derive the label from
the stored path, skip the "unknown" sentinel, require an underscore, split
at the first underscore into (article, product_id) and look the product up
under the store filter.  A none result is a skipped candidate. -/
def resolvePath (catalog : List Product) (store : Str) (path : Str) : Option Product :=
  let lbl := extractLabel path
  if lbl == unknownLabel then none
  else if '_' ∈ lbl then
    get_product_by_product_id_and_article catalog
      ((lbl.dropWhile (fun c => c ≠ '_')).tail)
      (lbl.takeWhile (fun c => c ≠ '_')) store
  else none

/-- The entry stored under a dedup key for a successfully resolved
candidate, carrying that candidate's own similarity and path. -/
def mkMatchEntry (images : List ProductImage) (path : Str) (sim : ℝ)
    (p : Product) : MatchEntry :=
  { product_label := extractLabel path
    similarity := sim
    matching_image_path := path
    product_id := p.id
    url := p.url
    article := p.article
    product_title := p.product_title
    bulb_type := p.bulb_type
    dimensions := p.dimensions
    image_url := get_public_url_by_path images path }

/-- The ranking walk over the sorted candidate pool.  unique_products is
embedded as an insertion-ordered association list.  For each index: stop
once top_k entries were collected; skip the candidate when its stored
label is already a key; accessing self._paths[idx] out of range raises an
IndexError that escapes to the outermost handler (CoreErr.pathIndex);
candidates whose resolution fails are skipped without recording the key;
a resolved candidate is appended under its stored label. -/
def walkCandidates (sims : List ℝ) (labels : List Int) (paths : List Str)
    (catalog : List Product) (images : List ProductImage) (store : Str)
    (topK : Nat) : List Nat → List (Int × MatchEntry) →
    Except CoreErr (List (Int × MatchEntry))
  | [], acc => .ok acc
  | idx :: rest, acc =>
    if topK ≤ acc.length then .ok acc
    else if acc.any (fun kv => kv.1 == labels.getD idx 0) then
      walkCandidates sims labels paths catalog images store topK rest acc
    else
      match paths.get? idx with
      | none => .error CoreErr.pathIndex
      | some path =>
        match resolvePath catalog store path with
        | none => walkCandidates sims labels paths catalog images store topK rest acc
        | some p =>
          walkCandidates sims labels paths catalog images store topK rest
            (acc ++ [(labels.getD idx 0, mkMatchEntry images path (sims.getD idx 0) p)])

/-- Ranking phase: walk the sorted candidate pool starting from the empty
dictionary and return list(unique_products.values()). -/
noncomputable def rankAndWalk (sims : List ℝ) (labels : List Int) (paths : List Str)
    (catalog : List Product) (images : List ProductImage) (store : Str)
    (topK : Nat) : Except CoreErr (List MatchEntry) :=
  (walkCandidates sims labels paths catalog images store topK
      (topIndices sims topK) []).map (fun kvs => kvs.map Prod.snd)

/-- The body of predict_image after feature extraction succeeded: empty
matrix and zero-norm query return the empty result; a row/query dimension
mismatch makes np.dot raise (CoreErr.shape, caught by the outermost
handler); otherwise similarities of the normalized cache against the
normalized query are ranked and walked. -/
noncomputable def searchWithQuery (qf : List ℝ) (db : FeaturesDict)
    (catalog : List Product) (images : List ProductImage) (store : Str)
    (topK : Nat) : Except CoreErr (List MatchEntry) :=
  if db.features.length = 0 then .ok []
  else if l2norm qf = 0 then .ok []
  else if db.features.any (fun r => r.length ≠ qf.length) then .error CoreErr.shape
  else
    rankAndWalk (simsOf (db.features.map normalizeRow) (normalizeVec qf))
      db.labels db.paths catalog images store topK

/-- Observable behaviour of predict_image up to (but not including) its
outermost except handler.  The extraction outcome is passed in: Except
models whether FeatureExtractor.extract_single_image_features raised.
When get_feature_count returns 0 the function returns [] before any
extraction is attempted. -/
noncomputable def predictImageBody (exRes : Except Unit (List ℝ))
    (records : List RawRecord) (catalog : List Product)
    (images : List ProductImage) (store : Str) (topK : Nat) :
    Except CoreErr (List MatchEntry) :=
  if records.length = 0 then .ok []
  else
    match exRes with
    | .error _ => .error CoreErr.extraction
    | .ok qf => searchWithQuery qf (get_all_features records) catalog images store topK

/-- Embedding of SearchService.predict_image: the outermost try/except
turns every escaped exception into the empty result list. -/
noncomputable def predict_image (exRes : Except Unit (List ℝ))
    (records : List RawRecord) (catalog : List Product)
    (images : List ProductImage) (store : Str) (topK : Nat) : List MatchEntry :=
  match predictImageBody exRes records catalog images store topK with
  | .ok l => l
  | .error _ => []

/-! ## Claim-side reading of the details tokenizer (C8) -/

/-- Split on a character-class predicate, keeping empty pieces. -/
def splitOnPred (p : Char → Bool) : Str → List Str
  | [] => [[]]
  | c :: rest =>
    match splitOnPred p rest with
    | [] => if p c then [[], []] else [[c]]
    | h :: t => if p c then [] :: h :: t else (c :: h) :: t

/-- The token list described by the specification sentence for the
details criterion: split on whitespace, keep the non-empty tokens
(Python str.split() semantics).  This is the claim's reading, written to
be compared with the source's split(' ') behaviour. -/
def whitespaceTokensClaim (s : Str) : List Str :=
  (splitOnPred isPySpace s).filter (fun t => !t.isEmpty)

/-! ## Concrete inputs used by counterexamples and witnesses -/

/-- A catalog product with dimensions "W:10, H:20, D:5" (spec example). -/
def prodW : Product :=
  ⟨1, "9001".toList, [], "ART".toList, [], [], [], "W:10, H:20, D:5".toList, [], [], []⟩

/-- The matching dimensions query of the spec example. -/
def dimsYes : Str := "W:10 H:20".toList

/-- The non-matching dimensions query of the spec example. -/
def dimsNo : Str := "W:10 H:99".toList

/-- A catalog product whose material is "a b". -/
def prodM : Product :=
  ⟨2, "9002".toList, [], "ART".toList, "a b".toList, [], [], [], [], [], []⟩

/-- A details query containing an internal tab: "a", tab, "b". -/
def detailsTab : Str := "a\tb".toList

/-- A catalog product whose material is "abc" (exercises the LIKE
underscore wildcard in details pieces). -/
def prodAbc : Product :=
  ⟨3, "9003".toList, [], "ART".toList, "abc".toList, [], [], [], [], [], []⟩

/-- A single well-formed stored feature record (used where a non-empty
feature table is needed). -/
def recsOne : List RawRecord := [⟨some [(1 : ℝ)], 7, some "r\\A_1\\i.jpg".toList⟩]

/-- A stored record whose feature bytes convert but whose image_path
bytes fail to decode as UTF-8 (image_path none). -/
def recBadPath : RawRecord := ⟨some [(1 : ℝ)], 7, none⟩

/-- First stored path of the duplicate-product cache: label directory
L_1, stored under feature label 10. -/
def pathA : Str := "r\\L_1\\a.jpg".toList

/-- Second stored path of the duplicate-product cache: the same label
directory L_1, stored under a different feature label 20. -/
def pathB : Str := "r\\L_1\\b.jpg".toList

/-- The single catalog product both cached rows resolve to:
product_id "1", article "L", database id 5. -/
def prodL : Product :=
  ⟨5, "1".toList, [], "L".toList, [], [], [], [], [], [], []⟩

/-- Two feature records with identical unit feature vectors and paths in
the same label directory, but distinct stored feature labels (10 and 20),
as arises from the hash-based product-id mapping across worker restarts. -/
def recsDup : List RawRecord :=
  [⟨some [(1 : ℝ)], 10, some pathA⟩, ⟨some [(1 : ℝ)], 20, some pathB⟩]

/-- A stored path with no backslash separator: label derivation fails. -/
def pathNoSep : Str := "r/A_1/i.jpg".toList

/-- A resolvable stored path with label directory A_1. -/
def pathGood : Str := "r\\A_1\\i.jpg".toList

/-- The catalog product for label directory A_1 (id 9). -/
def prodA : Product :=
  ⟨9, "1".toList, [], "A".toList, [], [], [], [], [], [], []⟩

/-! ## Lemmas: substring tests -/

theorem isPrefixB_iff (n h : Str) : isPrefixB n h = true ↔ ∃ t, h = n ++ t := by
  induction n generalizing h with
  | nil => simp [isPrefixB]
  | cons a u ih =>
    cases h with
    | nil => simp [isPrefixB]
    | cons b v =>
      simp only [isPrefixB, Bool.and_eq_true, beq_iff_eq, ih, List.cons_append]
      constructor
      · rintro ⟨rfl, t, rfl⟩
        exact ⟨t, rfl⟩
      · rintro ⟨t, heq⟩
        injection heq with h1 h2
        exact ⟨h1.symm, t, h2⟩

theorem isInfixB_iff (n h : Str) : isInfixB n h = true ↔ IsSubstr n h := by
  induction h with
  | nil =>
    cases n with
    | nil =>
      constructor
      · intro _
        exact ⟨[], [], rfl⟩
      · intro _
        rfl
    | cons a u =>
      constructor
      · intro hx
        simp [isInfixB, isPrefixB] at hx
      · rintro ⟨s, t, heq⟩
        simp at heq
  | cons c t ih =>
      simp only [isInfixB, Bool.or_eq_true, isPrefixB_iff, ih, IsSubstr]
      constructor
      · rintro (⟨w, heq⟩ | ⟨s, w, heq⟩)
        · exact ⟨[], w, by simpa using heq⟩
        · exact ⟨c :: s, w, by simp [heq]⟩
      · rintro ⟨s, w, heq⟩
        cases s with
        | nil => exact Or.inl ⟨w, by simpa using heq⟩
        | cons x s' =>
          injection heq with h1 h2
          exact Or.inr ⟨s', w, h2⟩

theorem ciSubstr_iff (hay needle : Str) :
    ciSubstr hay needle = true ↔ CiSubstr hay needle :=
  isInfixB_iff _ _

/-! ## Lemmas: SQL LIKE matching -/

theorem char_toNat_ofNat_small (n : Nat) (h : n < 55296) :
    (Char.ofNat n).toNat = n := by
  rw [Char.ofNat, dif_pos (Or.inl h : n.isValidChar)]
  rfl

theorem toLower_ne_wild (c : Char) (h1 : c ≠ '%') (h2 : c ≠ '_') :
    Char.toLower c ≠ '%' ∧ Char.toLower c ≠ '_' := by
  show (if c.toNat ≥ 65 ∧ c.toNat ≤ 90 then Char.ofNat (c.toNat + 32) else c) ≠ '%'
    ∧ (if c.toNat ≥ 65 ∧ c.toNat ≤ 90 then Char.ofNat (c.toNat + 32) else c) ≠ '_'
  by_cases h : c.toNat ≥ 65 ∧ c.toNat ≤ 90
  · rw [if_pos h]
    have hval : (Char.ofNat (c.toNat + 32)).toNat = c.toNat + 32 :=
      char_toNat_ofNat_small _ (by omega)
    refine ⟨fun he => ?_, fun he => ?_⟩
    · rw [he, show ('%' : Char).toNat = 37 from rfl] at hval
      omega
    · rw [he, show ('_' : Char).toNat = 95 from rfl] at hval
      omega
  · rw [if_neg h]
    exact ⟨h1, h2⟩

theorem likeMatchesAux_iff (n : Nat) : ∀ (p t : Str), p.length + t.length ≤ n →
    (likeMatchesAux n p t = true ↔ LikeSem p t) := by
  induction n with
  | zero =>
    intro p t hle
    cases p with
    | nil =>
      cases t with
      | nil =>
        simp only [likeMatchesAux, List.isEmpty_nil]
        exact ⟨fun _ => LikeSem.nil, fun _ => trivial⟩
      | cons d ts =>
        simp only [List.length_nil, List.length_cons] at hle
        omega
    | cons q ps =>
      simp only [List.length_cons] at hle
      omega
  | succ n ih =>
    intro p t hle
    cases p with
    | nil =>
      cases t with
      | nil =>
        simp only [likeMatchesAux, List.isEmpty_nil]
        exact ⟨fun _ => LikeSem.nil, fun _ => trivial⟩
      | cons d ts =>
        simp only [likeMatchesAux, List.isEmpty_cons]
        constructor
        · intro hfalse
          exact absurd hfalse (by simp)
        · intro h
          cases h
    | cons q ps =>
      cases t with
      | nil =>
        rw [likeMatchesAux]
        by_cases hq : (q == '%') = true
        · obtain rfl : q = '%' := beq_iff_eq.mp hq
          rw [if_pos hq,
            ih ps [] (by simp only [List.length_cons, List.length_nil] at hle ⊢; omega)]
          constructor
          · exact fun h => LikeSem.pct_skip ps [] h
          · intro h
            cases h with
            | pct_skip _ _ h' => exact h'
        · rw [if_neg hq]
          have hq' : q ≠ '%' := fun he => hq (by rw [he]; exact beq_self_eq_true '%')
          constructor
          · intro hfalse
            exact absurd hfalse (by simp)
          · intro h
            cases h with
            | pct_skip _ _ h' => exact absurd rfl hq'
      | cons d ts =>
        rw [likeMatchesAux]
        by_cases hq : (q == '%') = true
        · obtain rfl : q = '%' := beq_iff_eq.mp hq
          rw [if_pos hq, Bool.or_eq_true,
            ih ps (d :: ts) (by simp only [List.length_cons] at hle ⊢; omega),
            ih ('%' :: ps) ts (by simp only [List.length_cons] at hle ⊢; omega)]
          constructor
          · rintro (h | h)
            · exact LikeSem.pct_skip _ _ h
            · exact LikeSem.pct_take _ _ _ h
          · intro h
            cases h with
            | pct_skip _ _ h' => exact Or.inl h'
            | pct_take _ _ _ h' => exact Or.inr h'
            | one _ _ _ _ hor hne h' => exact absurd rfl hne
        · rw [if_neg hq]
          have hq' : q ≠ '%' := fun he => hq (by rw [he]; exact beq_self_eq_true '%')
          rw [Bool.and_eq_true, Bool.or_eq_true,
            ih ps ts (by simp only [List.length_cons] at hle ⊢; omega)]
          constructor
          · rintro ⟨hor, h'⟩
            refine LikeSem.one q d ps ts ?_ hq' h'
            rcases hor with h1 | h1
            · exact Or.inl (beq_iff_eq.mp h1)
            · exact Or.inr (beq_iff_eq.mp h1)
          · intro h
            cases h with
            | pct_skip _ _ h' => exact absurd rfl hq'
            | pct_take _ _ _ h' => exact absurd rfl hq'
            | one _ _ _ _ hor hne h' =>
              refine ⟨?_, h'⟩
              rcases hor with rfl | rfl
              · exact Or.inl (beq_self_eq_true _)
              · exact Or.inr (beq_self_eq_true _)

theorem ciLike_true_iff (hay piece : Str) :
    ciLike hay piece = true ↔ CiLike hay piece := by
  unfold ciLike CiLike likeMatches
  exact likeMatchesAux_iff _ _ _ (le_refl _)

theorem likeSem_any (t : Str) : LikeSem ['%'] t := by
  induction t with
  | nil => exact LikeSem.pct_skip [] [] LikeSem.nil
  | cons c ts ih => exact LikeSem.pct_take [] ts c ih

theorem likeSem_pct_iff (ps t : Str) :
    LikeSem ('%' :: ps) t ↔ ∃ s r, t = s ++ r ∧ LikeSem ps r := by
  induction t with
  | nil =>
    constructor
    · intro h
      cases h with
      | pct_skip _ _ h' => exact ⟨[], [], rfl, h'⟩
    · rintro ⟨s, r, heq, h'⟩
      obtain ⟨rfl, rfl⟩ := List.append_eq_nil.mp heq.symm
      exact LikeSem.pct_skip _ _ h'
  | cons c ts ih =>
    constructor
    · intro h
      cases h with
      | pct_skip _ _ h' => exact ⟨[], c :: ts, rfl, h'⟩
      | pct_take _ _ _ h' =>
        obtain ⟨s, r, heq, h''⟩ := ih.mp h'
        exact ⟨c :: s, r, by rw [heq, List.cons_append], h''⟩
      | one _ _ _ _ hor hne h' => exact absurd rfl hne
    · rintro ⟨s, r, heq, h'⟩
      cases s with
      | nil =>
        simp only [List.nil_append] at heq
        subst heq
        exact LikeSem.pct_skip _ _ h'
      | cons x s' =>
        rw [List.cons_append] at heq
        injection heq with hx hts
        subst hx
        exact LikeSem.pct_take _ _ _ (ih.mpr ⟨s', r, hts, h'⟩)

theorem likeSem_trailing (ps : Str) (hw : ∀ c ∈ ps, c ≠ '%' ∧ c ≠ '_') (r : Str) :
    LikeSem (ps ++ ['%']) r ↔ ∃ v, r = ps ++ v := by
  induction ps generalizing r with
  | nil =>
    simp only [List.nil_append]
    exact ⟨fun _ => ⟨r, rfl⟩, fun _ => likeSem_any r⟩
  | cons q ps' ih =>
    obtain ⟨hq1, hq2⟩ := hw q (List.mem_cons_self q ps')
    have hw' : ∀ c ∈ ps', c ≠ '%' ∧ c ≠ '_' :=
      fun c hc => hw c (List.mem_cons_of_mem q hc)
    rw [List.cons_append]
    constructor
    · intro h
      cases h with
      | pct_skip _ _ h' => exact absurd rfl hq1
      | pct_take _ _ _ h' => exact absurd rfl hq1
      | one _ c _ ts hor hne h' =>
        have hc : q = c := by
          rcases hor with h1 | h1
          · exact absurd h1 hq2
          · exact h1
        obtain ⟨v, hv⟩ := (ih hw' ts).mp h'
        subst hc
        exact ⟨v, by rw [List.cons_append, hv]⟩
    · rintro ⟨v, rfl⟩
      rw [List.cons_append]
      exact LikeSem.one q q (ps' ++ ['%']) (ps' ++ v) (Or.inr rfl) hq1
        ((ih hw' _).mpr ⟨v, rfl⟩)

theorem ciLike_iff_ciSubstr (hay piece : Str)
    (hw : ∀ c ∈ lowerStr piece, c ≠ '%' ∧ c ≠ '_') :
    CiLike hay piece ↔ CiSubstr hay piece := by
  unfold CiLike CiSubstr IsSubstr
  rw [likeSem_pct_iff]
  constructor
  · rintro ⟨s, r, heq, h'⟩
    obtain ⟨v, rfl⟩ := (likeSem_trailing _ hw r).mp h'
    exact ⟨s, v, heq⟩
  · rintro ⟨s, v, heq⟩
    exact ⟨s, lowerStr piece ++ v, heq, (likeSem_trailing _ hw _).mpr ⟨v, rfl⟩⟩

/-! ## Lemmas: the attribute search filter -/

theorem mem_specFiltered (catalog : List Product) (d b dm c st : Str) (p : Product) :
    p ∈ specFiltered catalog d b dm c st ↔
      p ∈ catalog ∧ specMatches d b dm c st p = true :=
  List.mem_filter

theorem specMatches_true_iff (d b dm c st : Str) (p : Product) :
    specMatches d b dm c st p = true ↔
      (st = allStore ∨ p.store = st)
      ∧ (b = [] ∨ CiLike p.bulb_type b)
      ∧ (dm = [] ∨
          ∀ t ∈ findallDims dm, trim t = [] ∨ CiLike p.dimensions (trim t))
      ∧ (c = [] ∨ CiLike p.url c)
      ∧ (d = [] ∨
          ∀ t ∈ splitOnChar ' ' d, trim t = [] ∨ CiLike p.material (trim t)) := by
  simp only [specMatches, Bool.and_eq_true, Bool.or_eq_true, beq_iff_eq,
    List.all_eq_true, ciLike_true_iff]
  tauto

/-! ## Lemmas: shape of extracted dimension tokens -/

theorem pySpace_cases (c : Char) (h : isPySpace c = true) :
    c = ' ' ∨ c = '\t' ∨ c = '\n' ∨ c = '\r' ∨ c = '\x0b' ∨ c = '\x0c' := by
  simp only [isPySpace, Bool.or_eq_true, beq_iff_eq] at h
  tauto

theorem alpha_not_space (c : Char) (h : isAlphaCh c = true) : isPySpace c = false := by
  by_contra hc
  rw [Bool.not_eq_false] at hc
  rcases pySpace_cases c hc with rfl | rfl | rfl | rfl | rfl | rfl <;>
    exact absurd h (by decide)

theorem digit_not_space (c : Char) (h : isDigitCh c = true) : isPySpace c = false := by
  by_contra hc
  rw [Bool.not_eq_false] at hc
  rcases pySpace_cases c hc with rfl | rfl | rfl | rfl | rfl | rfl <;>
    exact absurd h (by decide)

theorem matchDimToken_shape (s tok rest : Str)
    (h : matchDimToken s = some (tok, rest)) :
    ∃ a m d, tok = a :: (m ++ [d]) ∧ isAlphaCh a = true ∧ isDigitCh d = true := by
  match s with
  | [] => simp [matchDimToken] at h
  | [a] => simp [matchDimToken] at h
  | a :: b :: r =>
    simp only [matchDimToken] at h
    by_cases hab : (isAlphaCh a && (b == ':')) = true
    · rw [if_pos hab] at h
      rcases Bool.and_eq_true .. |>.mp hab with ⟨ha, hb⟩
      cases r with
      | nil => simp [matchDimTokenTail] at h
      | cons c r2 =>
        simp only [matchDimTokenTail] at h
        by_cases hc : (c == ' ') = true
        · rw [if_pos hc] at h
          by_cases he : (r2.takeWhile isDigitCh).isEmpty
          · rw [if_pos he] at h
            exact absurd h (by simp)
          · rw [if_neg he] at h
            injection h with h1
            injection h1 with htok _
            have hne : r2.takeWhile isDigitCh ≠ [] := by
              simpa [List.isEmpty_iff] using he
            refine ⟨a, ':' :: ' ' :: (r2.takeWhile isDigitCh).dropLast,
              (r2.takeWhile isDigitCh).getLast hne, ?_, ha, ?_⟩
            · rw [← htok]
              simp [List.dropLast_append_getLast hne]
            · exact List.mem_takeWhile_imp (List.getLast_mem hne)
        · rw [if_neg hc] at h
          by_cases he : ((c :: r2).takeWhile isDigitCh).isEmpty
          · rw [if_pos he] at h
            exact absurd h (by simp)
          · rw [if_neg he] at h
            injection h with h1
            injection h1 with htok _
            have hne : (c :: r2).takeWhile isDigitCh ≠ [] := by
              simpa [List.isEmpty_iff] using he
            refine ⟨a, ':' :: ((c :: r2).takeWhile isDigitCh).dropLast,
              ((c :: r2).takeWhile isDigitCh).getLast hne, ?_, ha, ?_⟩
            · rw [← htok]
              simp [List.dropLast_append_getLast hne]
            · exact List.mem_takeWhile_imp (List.getLast_mem hne)
    · rw [if_neg hab] at h
      exact absurd h (by simp)

theorem findallDimsAux_shape (fuel : Nat) (s tok : Str)
    (h : tok ∈ findallDimsAux fuel s) :
    ∃ a m d, tok = a :: (m ++ [d]) ∧ isAlphaCh a = true ∧ isDigitCh d = true := by
  induction fuel generalizing s with
  | zero => simp [findallDimsAux] at h
  | succ n ih =>
    cases s with
    | nil => simp [findallDimsAux] at h
    | cons c rest =>
      rw [findallDimsAux] at h
      cases hm : matchDimToken (c :: rest) with
      | none =>
        rw [hm] at h
        exact ih _ h
      | some pr =>
        obtain ⟨t1, t2⟩ := pr
        rw [hm] at h
        rcases List.mem_cons.mp h with rfl | hmem
        · exact matchDimToken_shape _ _ _ hm
        · exact ih _ hmem

theorem trim_eq_self (a d : Char) (m : Str)
    (ha : isPySpace a = false) (hd : isPySpace d = false) :
    trim (a :: (m ++ [d])) = a :: (m ++ [d]) := by
  simp [trim, List.dropWhile_cons, ha, hd]

theorem findallDims_trim (s tok : Str) (h : tok ∈ findallDims s) :
    trim tok = tok ∧ tok ≠ [] := by
  obtain ⟨a, m, d, rfl, ha, hd⟩ := findallDimsAux_shape _ _ _ h
  exact ⟨trim_eq_self a d m (alpha_not_space a ha) (digit_not_space d hd), by simp⟩

theorem matchDimToken_classes (s tok rest : Str)
    (h : matchDimToken s = some (tok, rest)) :
    ∀ c ∈ tok, isAlphaCh c = true ∨ c = ':' ∨ c = ' ' ∨ isDigitCh c = true := by
  match s with
  | [] => simp [matchDimToken] at h
  | [a] => simp [matchDimToken] at h
  | a :: b :: r =>
    simp only [matchDimToken] at h
    by_cases hab : (isAlphaCh a && (b == ':')) = true
    · rw [if_pos hab] at h
      rcases Bool.and_eq_true .. |>.mp hab with ⟨ha, hb⟩
      cases r with
      | nil => simp [matchDimTokenTail] at h
      | cons c r2 =>
        simp only [matchDimTokenTail] at h
        by_cases hc : (c == ' ') = true
        · rw [if_pos hc] at h
          by_cases he : (r2.takeWhile isDigitCh).isEmpty
          · rw [if_pos he] at h
            exact absurd h (by simp)
          · rw [if_neg he] at h
            injection h with h1
            injection h1 with htok _
            intro x hx
            rw [← htok] at hx
            rcases List.mem_cons.mp hx with rfl | hx
            · exact Or.inl ha
            rcases List.mem_cons.mp hx with rfl | hx
            · exact Or.inr (Or.inl rfl)
            rcases List.mem_cons.mp hx with rfl | hx
            · exact Or.inr (Or.inr (Or.inl rfl))
            · exact Or.inr (Or.inr (Or.inr (List.mem_takeWhile_imp hx)))
        · rw [if_neg hc] at h
          by_cases he : ((c :: r2).takeWhile isDigitCh).isEmpty
          · rw [if_pos he] at h
            exact absurd h (by simp)
          · rw [if_neg he] at h
            injection h with h1
            injection h1 with htok _
            intro x hx
            rw [← htok] at hx
            rcases List.mem_cons.mp hx with rfl | hx
            · exact Or.inl ha
            rcases List.mem_cons.mp hx with rfl | hx
            · exact Or.inr (Or.inl rfl)
            · exact Or.inr (Or.inr (Or.inr (List.mem_takeWhile_imp hx)))
    · rw [if_neg hab] at h
      exact absurd h (by simp)

theorem findallDimsAux_classes (fuel : Nat) (s tok : Str)
    (h : tok ∈ findallDimsAux fuel s) :
    ∀ c ∈ tok, isAlphaCh c = true ∨ c = ':' ∨ c = ' ' ∨ isDigitCh c = true := by
  induction fuel generalizing s with
  | zero => simp [findallDimsAux] at h
  | succ n ih =>
    cases s with
    | nil => simp [findallDimsAux] at h
    | cons c rest =>
      rw [findallDimsAux] at h
      cases hm : matchDimToken (c :: rest) with
      | none =>
        rw [hm] at h
        exact ih _ h
      | some pr =>
        obtain ⟨t1, t2⟩ := pr
        rw [hm] at h
        rcases List.mem_cons.mp h with rfl | hmem
        · exact matchDimToken_classes _ _ _ hm
        · exact ih _ hmem

theorem findallDims_classes (s tok : Str) (h : tok ∈ findallDims s) :
    ∀ c ∈ tok, isAlphaCh c = true ∨ c = ':' ∨ c = ' ' ∨ isDigitCh c = true :=
  findallDimsAux_classes s.length s tok h

theorem class_not_wild (c : Char)
    (h : isAlphaCh c = true ∨ c = ':' ∨ c = ' ' ∨ isDigitCh c = true) :
    c ≠ '%' ∧ c ≠ '_' := by
  rcases h with h | rfl | rfl | h
  · constructor <;> intro he <;> rw [he] at h <;> exact absurd h (by decide)
  · exact ⟨by decide, by decide⟩
  · exact ⟨by decide, by decide⟩
  · constructor <;> intro he <;> rw [he] at h <;> exact absurd h (by decide)

theorem token_lower_not_wild (t : Str)
    (hcl : ∀ c ∈ t, isAlphaCh c = true ∨ c = ':' ∨ c = ' ' ∨ isDigitCh c = true) :
    ∀ c ∈ lowerStr t, c ≠ '%' ∧ c ≠ '_' := by
  intro c hc
  obtain ⟨c0, hc0, rfl⟩ := List.mem_map.mp hc
  obtain ⟨h1, h2⟩ := class_not_wild c0 (hcl c0 hc0)
  exact toLower_ne_wild c0 h1 h2

/-! ## Claims C7 and C8: the attribute search -/

/-- Claim C7: for every dimensions query string, the attribute search
extracts all tokens matching letter-colon-optional-space-digits and keeps
exactly those products whose stored dimensions field contains every
extracted token as a case-insensitive substring (AND over all tokens);
in particular the stored dimensions "W:10, H:20, D:5" match the query
"W:10 H:20" and do not match the query "W:10 H:99". -/
theorem claim_c7_dimension_filter :
    (∀ (catalog : List Product) (dims : Str) (p : Product),
      p ∈ specFiltered catalog [] [] dims [] allStore ↔
        p ∈ catalog ∧ ∀ t ∈ findallDims dims, CiSubstr p.dimensions t)
    ∧ prodW ∈ specFiltered [prodW] [] [] dimsYes [] allStore
    ∧ specFiltered [prodW] [] [] dimsNo [] allStore = [] := by
  refine ⟨?_, by decide, by decide⟩
  intro catalog dims p
  rw [mem_specFiltered, specMatches_true_iff]
  constructor
  · rintro ⟨hp, -, -, hdm, -, -⟩
    refine ⟨hp, fun t ht => ?_⟩
    rcases hdm with rfl | hall
    · simp [findallDims, findallDimsAux] at ht
    · obtain ⟨htr, hne⟩ := findallDims_trim dims t ht
      rcases hall t ht with h0 | hc
      · exact absurd (htr.symm.trans h0) hne
      · rw [htr] at hc
        exact (ciLike_iff_ciSubstr _ _
          (token_lower_not_wild t (findallDims_classes dims t ht))).mp hc
  · rintro ⟨hp, hall⟩
    refine ⟨hp, Or.inl rfl, Or.inl rfl, ?_, Or.inl rfl, Or.inl rfl⟩
    right
    intro t ht
    obtain ⟨htr, _⟩ := findallDims_trim dims t ht
    rw [htr]
    exact Or.inr ((ciLike_iff_ciSubstr _ _
      (token_lower_not_wild t (findallDims_classes dims t ht))).mpr (hall t ht))

/-- Claim C8 counterexample: the details query consisting of "a", a tab
and "b" has whitespace tokens "a" and "b", both case-insensitive
substrings of the stored material "a b", so under the claim's
split-on-whitespace reading the product is kept; the code splits on the
space character only, producing the single token containing the tab,
which does not occur in the material, so the product is dropped. -/
theorem claim_c8_counterexample :
    specFiltered [prodM] detailsTab [] [] [] allStore = []
    ∧ ∀ t ∈ whitespaceTokensClaim detailsTab, CiSubstr prodM.material t := by
  have h : ∀ t ∈ whitespaceTokensClaim detailsTab,
      ciSubstr prodM.material t = true := by decide
  exact ⟨by decide, fun t ht => (ciSubstr_iff _ _).mp (h t ht)⟩

/-- Claim C8 amended: the attribute search splits the details string on
the space character, strips each piece of surrounding whitespace, and
keeps exactly those products whose material field matches every
non-empty stripped piece under case-insensitive SQL LIKE '%piece%'
semantics, in which an unescaped underscore matches any single character
and an unescaped percent any character sequence (for wildcard-free
pieces this is exactly the case-insensitive substring condition, by
ciLike_iff_ciSubstr).  The concrete conjuncts exhibit the wildcard
behaviour: the piece a-underscore-c keeps a product with material "abc"
although the piece is not a literal substring of that material. -/
theorem claim_c8_details_filter :
    (∀ (catalog : List Product) (details : Str) (p : Product),
      p ∈ specFiltered catalog details [] [] [] allStore ↔
        p ∈ catalog ∧ ∀ t ∈ splitOnChar ' ' details,
          trim t ≠ [] → CiLike p.material (trim t))
    ∧ prodAbc ∈ specFiltered [prodAbc] "a_c".toList [] [] [] allStore
    ∧ ciSubstr prodAbc.material "a_c".toList = false := by
  refine ⟨?_, by decide, by decide⟩
  intro catalog details p
  rw [mem_specFiltered, specMatches_true_iff]
  constructor
  · rintro ⟨hp, -, -, -, -, hd⟩
    refine ⟨hp, fun t ht hne => ?_⟩
    rcases hd with rfl | hall
    · simp [splitOnChar] at ht
      subst ht
      simp [trim] at hne
    · rcases hall t ht with h0 | hc
      · exact absurd h0 hne
      · exact hc
  · rintro ⟨hp, hall⟩
    refine ⟨hp, Or.inl rfl, Or.inl rfl, Or.inl rfl, Or.inl rfl, ?_⟩
    right
    intro t ht
    by_cases hne : trim t = []
    · exact Or.inl hne
    · exact Or.inr (hall t ht hne)

/-! ## Claim C1: extraction failure handling -/

/-- Claim C1 counterexample: with a non-empty feature table and a failing
extraction, the body of predict_image stops with the extraction error,
yet predict_image itself returns the normal empty result list — the
outermost except handler absorbs the failure, so no hard failure is
surfaced to the caller, contradicting the claim. -/
theorem claim_c1_counterexample :
    predictImageBody (Except.error ()) recsOne [] [] allStore 20
      = Except.error CoreErr.extraction
    ∧ predict_image (Except.error ()) recsOne [] [] allStore 20 = [] :=
  ⟨rfl, rfl⟩

/-- Claim C1 amended: when the feature table is non-empty and extraction
raises, the failure terminates that single request's processing with the
extraction error and nothing at this layer retries it, but the outermost
except handler of predict_image converts the failure into the normal
empty result list, so the caller receives an ordinary empty result rather
than a hard failure. -/
theorem claim_c1_extraction_failure (e : Unit) (records : List RawRecord)
    (catalog : List Product) (images : List ProductImage) (store : Str)
    (topK : Nat) (hne : records.length ≠ 0) :
    predictImageBody (Except.error e) records catalog images store topK
      = Except.error CoreErr.extraction
    ∧ predict_image (Except.error e) records catalog images store topK = [] := by
  have h1 : predictImageBody (Except.error e) records catalog images store topK
      = Except.error CoreErr.extraction := by
    unfold predictImageBody
    rw [if_neg hne]
  refine ⟨h1, ?_⟩
  unfold predict_image
  rw [h1]

/-- Witness for the amended claim C1 at a concrete non-empty cache. -/
theorem claim_c1_extraction_failure_witness :
    recsOne.length ≠ 0
    ∧ (predictImageBody (Except.error ()) recsOne [] [] allStore 20
        = Except.error CoreErr.extraction
      ∧ predict_image (Except.error ()) recsOne [] [] allStore 20 = []) :=
  ⟨by decide, claim_c1_extraction_failure () recsOne [] [] allStore 20 (by decide)⟩

/-! ## Claim C4: cache snapshot alignment -/

/-- Claim C4 is right about the intent but the code violates it: in
get_all_features the feature row and the label are appended before the
image_path conversion is attempted, so a record whose path bytes fail to
decode leaves features and labels one entry longer than paths, breaking
the parallel-array invariant.  This theorem evaluates the embedded code
at such a failing record. -/
theorem claim_c4_misaligned_cache :
    (get_all_features [recBadPath]).features.length = 1
    ∧ (get_all_features [recBadPath]).labels.length = 1
    ∧ (get_all_features [recBadPath]).paths.length = 0 :=
  ⟨rfl, rfl, rfl⟩

/-! ## Lemmas: the ranking walk -/

theorem walkCandidates_nodup_le (sims : List ℝ) (labels : List Int) (paths : List Str)
    (catalog : List Product) (images : List ProductImage) (store : Str) (topK : Nat)
    (is : List Nat) (acc final : List (Int × MatchEntry))
    (hnd : (acc.map Prod.fst).Nodup) (hlen : acc.length ≤ topK)
    (hok : walkCandidates sims labels paths catalog images store topK is acc
      = .ok final) :
    (final.map Prod.fst).Nodup ∧ final.length ≤ topK := by
  induction is generalizing acc with
  | nil =>
    rw [walkCandidates] at hok
    injection hok with h
    subst h
    exact ⟨hnd, hlen⟩
  | cons idx rest ih =>
    rw [walkCandidates] at hok
    by_cases hstop : topK ≤ acc.length
    · rw [if_pos hstop] at hok
      injection hok with h
      subst h
      exact ⟨hnd, hlen⟩
    · rw [if_neg hstop] at hok
      by_cases hseen : acc.any (fun kv => kv.1 == labels.getD idx 0) = true
      · rw [if_pos hseen] at hok
        exact ih acc hnd hlen hok
      · rw [if_neg hseen] at hok
        cases hp : paths.get? idx with
        | none =>
          rw [hp] at hok
          exact absurd hok (by simp)
        | some path =>
          rw [hp] at hok
          simp only at hok
          cases hr : resolvePath catalog store path with
          | none =>
            rw [hr] at hok
            exact ih acc hnd hlen hok
          | some p =>
            rw [hr] at hok
            refine ih _ ?_ ?_ hok
            · have hkey : labels.getD idx 0 ∉ acc.map Prod.fst := by
                intro hmem
                obtain ⟨kv, hkv, hfst⟩ := List.mem_map.mp hmem
                exact hseen (List.any_eq_true.mpr ⟨kv, hkv, by simp [hfst]⟩)
              rw [List.map_append]
              refine List.Nodup.append hnd (by simp) ?_
              intro a ha hb
              simp only [List.map_cons, List.map_nil, List.mem_singleton] at hb
              subst hb
              exact hkey ha
            · have : acc.length < topK := Nat.lt_of_not_le hstop
              simp only [List.length_append, List.length_cons, List.length_nil]
              omega

theorem walkCandidates_mono (sims : List ℝ) (labels : List Int) (paths : List Str)
    (catalog : List Product) (images : List ProductImage) (store : Str) (topK : Nat)
    (is : List Nat) (acc final : List (Int × MatchEntry)) (kv : Int × MatchEntry)
    (hkv : kv ∈ acc)
    (hok : walkCandidates sims labels paths catalog images store topK is acc
      = .ok final) : kv ∈ final := by
  induction is generalizing acc with
  | nil =>
    rw [walkCandidates] at hok
    injection hok with h
    subst h
    exact hkv
  | cons idx rest ih =>
    rw [walkCandidates] at hok
    by_cases hstop : topK ≤ acc.length
    · rw [if_pos hstop] at hok
      injection hok with h
      subst h
      exact hkv
    · rw [if_neg hstop] at hok
      by_cases hseen : acc.any (fun kv => kv.1 == labels.getD idx 0) = true
      · rw [if_pos hseen] at hok
        exact ih acc hkv hok
      · rw [if_neg hseen] at hok
        cases hp : paths.get? idx with
        | none =>
          rw [hp] at hok
          exact absurd hok (by simp)
        | some path =>
          rw [hp] at hok
          simp only at hok
          cases hr : resolvePath catalog store path with
          | none =>
            rw [hr] at hok
            exact ih acc hkv hok
          | some p =>
            rw [hr] at hok
            exact ih _ (List.mem_append_left _ hkv) hok

theorem walkCandidates_skip (sims : List ℝ) (labels : List Int) (paths : List Str)
    (catalog : List Product) (images : List ProductImage) (store : Str) (topK : Nat)
    (idx : Nat) (rest : List Nat) (acc : List (Int × MatchEntry)) (path : Str)
    (hp : paths.get? idx = some path)
    (hr : resolvePath catalog store path = none) :
    walkCandidates sims labels paths catalog images store topK (idx :: rest) acc
      = walkCandidates sims labels paths catalog images store topK rest acc := by
  rw [walkCandidates]
  by_cases hstop : topK ≤ acc.length
  · rw [if_pos hstop]
    cases rest with
    | nil => rw [walkCandidates]
    | cons j r =>
      rw [walkCandidates, if_pos hstop]
  · rw [if_neg hstop]
    by_cases hseen : acc.any (fun kv => kv.1 == labels.getD idx 0) = true
    · rw [if_pos hseen]
    · rw [if_neg hseen, hp]
      simp only [hr]

theorem walkCandidates_skip_all (sims : List ℝ) (labels : List Int) (paths : List Str)
    (catalog : List Product) (images : List ProductImage) (store : Str) (topK : Nat)
    (is1 tail : List Nat) (acc : List (Int × MatchEntry))
    (hfail : ∀ i ∈ is1, ∃ pi, paths.get? i = some pi
      ∧ resolvePath catalog store pi = none) :
    walkCandidates sims labels paths catalog images store topK (is1 ++ tail) acc
      = walkCandidates sims labels paths catalog images store topK tail acc := by
  induction is1 with
  | nil => rfl
  | cons i r ih =>
    obtain ⟨pi, hpi, hri⟩ := hfail i (List.mem_cons_self i r)
    rw [List.cons_append,
      walkCandidates_skip sims labels paths catalog images store topK i (r ++ tail)
        acc pi hpi hri,
      ih (fun x hx => hfail x (List.mem_cons_of_mem i hx))]

theorem walkCandidates_labels_ok (sims : List ℝ) (labels : List Int) (paths : List Str)
    (catalog : List Product) (images : List ProductImage) (store : Str) (topK : Nat)
    (is : List Nat) (acc final : List (Int × MatchEntry))
    (hacc : ∀ kv ∈ acc, extractLabel (kv.2).matching_image_path ≠ unknownLabel)
    (hok : walkCandidates sims labels paths catalog images store topK is acc
      = .ok final) :
    ∀ kv ∈ final, extractLabel (kv.2).matching_image_path ≠ unknownLabel := by
  induction is generalizing acc with
  | nil =>
    rw [walkCandidates] at hok
    injection hok with h
    subst h
    exact hacc
  | cons idx rest ih =>
    rw [walkCandidates] at hok
    by_cases hstop : topK ≤ acc.length
    · rw [if_pos hstop] at hok
      injection hok with h
      subst h
      exact hacc
    · rw [if_neg hstop] at hok
      by_cases hseen : acc.any (fun kv => kv.1 == labels.getD idx 0) = true
      · rw [if_pos hseen] at hok
        exact ih acc hacc hok
      · rw [if_neg hseen] at hok
        cases hp : paths.get? idx with
        | none =>
          rw [hp] at hok
          exact absurd hok (by simp)
        | some path =>
          rw [hp] at hok
          simp only at hok
          cases hr : resolvePath catalog store path with
          | none =>
            rw [hr] at hok
            exact ih acc hacc hok
          | some p =>
            rw [hr] at hok
            refine ih _ ?_ hok
            intro kv hkv
            rcases List.mem_append.mp hkv with hold | hnew
            · exact hacc kv hold
            · have hkv1 : kv = (labels.getD idx 0,
                  mkMatchEntry images path (sims.getD idx 0) p) := by
                simpa using hnew
              subst hkv1
              have hres : resolvePath catalog store path = some p := hr
              intro hc
              unfold resolvePath at hres
              rw [show extractLabel (mkMatchEntry images path (sims.getD idx 0)
                p).matching_image_path = extractLabel path from rfl] at hc
              rw [hc] at hres
              simp at hres

/-! ## Predict image case analysis -/

theorem predictImageBody_okEq (qf : List ℝ) (records : List RawRecord)
    (catalog : List Product) (images : List ProductImage) (store : Str)
    (topK : Nat) :
    predictImageBody (Except.ok qf) records catalog images store topK
      = if records.length = 0 then Except.ok []
        else searchWithQuery qf (get_all_features records) catalog images store topK :=
  rfl

theorem predict_image_cases (exRes : Except Unit (List ℝ)) (records : List RawRecord)
    (catalog : List Product) (images : List ProductImage) (store : Str) (topK : Nat) :
    predict_image exRes records catalog images store topK = []
    ∨ ∃ (qf : List ℝ) (kvs : List (Int × MatchEntry)),
        l2norm qf ≠ 0
        ∧ (∀ r ∈ (get_all_features records).features, r.length = qf.length)
        ∧ walkCandidates
            (simsOf ((get_all_features records).features.map normalizeRow)
              (normalizeVec qf))
            (get_all_features records).labels (get_all_features records).paths
            catalog images store topK
            (topIndices (simsOf ((get_all_features records).features.map normalizeRow)
              (normalizeVec qf)) topK) []
            = .ok kvs
        ∧ predict_image exRes records catalog images store topK
            = kvs.map Prod.snd := by
  by_cases h0 : records.length = 0
  · left
    unfold predict_image predictImageBody
    rw [if_pos h0]
  · cases exRes with
    | error e =>
      left
      unfold predict_image predictImageBody
      rw [if_neg h0]
    | ok qf =>
      have hbody : predictImageBody (Except.ok qf) records catalog images store topK
          = searchWithQuery qf (get_all_features records) catalog images store topK := by
        rw [predictImageBody_okEq, if_neg h0]
      unfold searchWithQuery at hbody
      by_cases h1 : (get_all_features records).features.length = 0
      · rw [if_pos h1] at hbody
        left
        unfold predict_image
        rw [hbody]
      rw [if_neg h1] at hbody
      by_cases h2 : l2norm qf = 0
      · rw [if_pos h2] at hbody
        left
        unfold predict_image
        rw [hbody]
      rw [if_neg h2] at hbody
      by_cases h3 : ((get_all_features records).features.any
        (fun r => r.length ≠ qf.length)) = true
      · rw [if_pos h3] at hbody
        left
        unfold predict_image
        rw [hbody]
      rw [if_neg h3] at hbody
      unfold rankAndWalk at hbody
      cases hw : walkCandidates
        (simsOf ((get_all_features records).features.map normalizeRow)
          (normalizeVec qf))
        (get_all_features records).labels (get_all_features records).paths
        catalog images store topK
        (topIndices (simsOf ((get_all_features records).features.map normalizeRow)
          (normalizeVec qf)) topK) [] with
      | error e =>
        rw [hw] at hbody
        left
        unfold predict_image
        rw [hbody]
        rfl
      | ok kvs =>
        rw [hw] at hbody
        right
        refine ⟨qf, kvs, h2, ?_, hw, ?_⟩
        · intro r hr
          by_contra hrc
          exact h3 (List.any_eq_true.mpr ⟨r, hr, by simpa using hrc⟩)
        · unfold predict_image
          rw [hbody]
          rfl

/-! ## Claims C2 (amended part), C9 and C10 -/

/-- Claim C2 amended: the visual search result is the value list of an
association list keyed by the stored feature labels, with pairwise
distinct keys and at most topK entries; deduplication is by stored
feature label, not by resolved product identity. -/
theorem claim_c2_dedup_by_stored_label (exRes : Except Unit (List ℝ))
    (records : List RawRecord) (catalog : List Product)
    (images : List ProductImage) (store : Str) (topK : Nat) :
    ∃ kvs : List (Int × MatchEntry),
      predict_image exRes records catalog images store topK = kvs.map Prod.snd
      ∧ (kvs.map Prod.fst).Nodup ∧ kvs.length ≤ topK := by
  rcases predict_image_cases exRes records catalog images store topK with
    hnil | ⟨qf, kvs, _, _, hok, heq⟩
  · exact ⟨[], by simpa using hnil, by simp, by simp⟩
  · obtain ⟨hnd, hlen⟩ := walkCandidates_nodup_le _ _ _ _ _ _ _ _ _ _
      (by simp) (by simp) hok
    exact ⟨kvs, heq, hnd, hlen⟩

/-- Claim C9: in the ranking walk a stored label is recorded as seen only
when its candidate resolves under the store filter, so when every earlier
candidate fails resolution (malformed label or failed lookup), a later,
lower-ranked candidate — even one carrying the same stored label — is
still resolved and included, with its own (lower) similarity reported. -/
theorem claim_c9_later_candidate_included (sims : List ℝ) (labels : List Int)
    (paths : List Str) (catalog : List Product) (images : List ProductImage)
    (store : Str) (topK : Nat) (is1 is2 : List Nat) (j : Nat) (pj : Str)
    (prod : Product) (final : List (Int × MatchEntry))
    (hfail : ∀ i ∈ is1, ∃ pi, paths.get? i = some pi
      ∧ resolvePath catalog store pi = none)
    (hpj : paths.get? j = some pj)
    (hres : resolvePath catalog store pj = some prod)
    (htop : 1 ≤ topK)
    (hok : walkCandidates sims labels paths catalog images store topK
      (is1 ++ j :: is2) [] = .ok final) :
    (labels.getD j 0, mkMatchEntry images pj (sims.getD j 0) prod) ∈ final := by
  rw [walkCandidates_skip_all sims labels paths catalog images store topK is1
    (j :: is2) [] hfail] at hok
  rw [walkCandidates] at hok
  rw [if_neg (by simp only [List.length_nil]; omega :
    ¬ topK ≤ ([] : List (Int × MatchEntry)).length)] at hok
  rw [if_neg (by simp : ¬ (([] : List (Int × MatchEntry)).any
    (fun kv => kv.1 == labels.getD j 0) = true))] at hok
  rw [hpj] at hok
  simp only at hok
  rw [hres] at hok
  exact walkCandidates_mono _ _ _ _ _ _ _ _ _ _ _ (by simp) hok

/-- Claim C10: label derivation takes the second backslash-separated
component of the stored path; a path with fewer than two such components
(for example a POSIX-style path) derives the sentinel "unknown", and a
candidate with such a path is always skipped, so no returned match ever
carries that path. -/
theorem claim_c10_malformed_path_skipped (p : Str)
    (h : (splitOnChar '\\' p).length < 2) :
    extractLabel p = unknownLabel
    ∧ ∀ (exRes : Except Unit (List ℝ)) (records : List RawRecord)
        (catalog : List Product) (images : List ProductImage) (store : Str)
        (topK : Nat), ∀ m ∈ predict_image exRes records catalog images store topK,
          m.matching_image_path ≠ p := by
  have hu : extractLabel p = unknownLabel := by
    unfold extractLabel
    cases hs : splitOnChar '\\' p with
    | nil => rfl
    | cons x t =>
      cases t with
      | nil => rfl
      | cons y t2 =>
        exfalso
        rw [hs] at h
        simp only [List.length_cons] at h
        omega
  refine ⟨hu, ?_⟩
  intro exRes records catalog images store topK m hm hc
  rcases predict_image_cases exRes records catalog images store topK with
    hnil | ⟨qf, kvs, _, _, hok, heq⟩
  · rw [hnil] at hm
    simp at hm
  · rw [heq] at hm
    obtain ⟨kv, hkv, rfl⟩ := List.mem_map.mp hm
    have hne := walkCandidates_labels_ok _ _ _ _ _ _ _ _ _ _ (by simp) hok kv hkv
    rw [hc, hu] at hne
    exact hne rfl

/-- Witness for claim C9 on a concrete two-candidate pool whose rows both
carry the stored label 5: the higher-similarity candidate has a malformed
path and fails resolution, the later candidate resolves and is included
with its own similarity. -/
theorem claim_c9_witness :
    (∀ i ∈ [0], ∃ pi, [pathNoSep, pathGood].get? i = some pi
      ∧ resolvePath [prodA] allStore pi = none)
    ∧ [pathNoSep, pathGood].get? 1 = some pathGood
    ∧ resolvePath [prodA] allStore pathGood = some prodA
    ∧ 1 ≤ 1
    ∧ walkCandidates [(2 : ℝ), 1] [5, 5] [pathNoSep, pathGood] [prodA] []
        allStore 1 ([0] ++ 1 :: []) []
      = Except.ok [(([5, 5] : List Int).getD 1 0,
          mkMatchEntry [] pathGood ([(2 : ℝ), 1].getD 1 0) prodA)]
    ∧ (([5, 5] : List Int).getD 1 0,
        mkMatchEntry [] pathGood ([(2 : ℝ), 1].getD 1 0) prodA)
      ∈ [(([5, 5] : List Int).getD 1 0,
          mkMatchEntry [] pathGood ([(2 : ℝ), 1].getD 1 0) prodA)] := by
  have hf : ∀ i ∈ [0], ∃ pi, [pathNoSep, pathGood].get? i = some pi
      ∧ resolvePath [prodA] allStore pi = none := by
    intro i hi
    simp only [List.mem_singleton] at hi
    subst hi
    exact ⟨pathNoSep, rfl, by decide⟩
  exact ⟨hf, rfl, by decide, le_refl 1, rfl,
    claim_c9_later_candidate_included [(2 : ℝ), 1] [5, 5] [pathNoSep, pathGood]
      [prodA] [] allStore 1 [0] [] 1 pathGood prodA
      [(([5, 5] : List Int).getD 1 0,
        mkMatchEntry [] pathGood ([(2 : ℝ), 1].getD 1 0) prodA)]
      hf rfl (by decide) (le_refl 1) rfl⟩

/-- Witness for claim C10 at the POSIX-style path r/A_1/i.jpg. -/
theorem claim_c10_witness :
    (splitOnChar '\\' pathNoSep).length < 2
    ∧ (extractLabel pathNoSep = unknownLabel
      ∧ ∀ (exRes : Except Unit (List ℝ)) (records : List RawRecord)
          (catalog : List Product) (images : List ProductImage) (store : Str)
          (topK : Nat),
          ∀ m ∈ predict_image exRes records catalog images store topK,
            m.matching_image_path ≠ pathNoSep) :=
  ⟨by decide, claim_c10_malformed_path_skipped pathNoSep (by decide)⟩

/-! ## Lemmas: descending argsort and candidate selection -/

theorem insertDesc_perm (key : Nat → ℝ) (i : Nat) (l : List Nat) :
    (insertDesc key i l).Perm (i :: l) := by
  induction l with
  | nil => rfl
  | cons j rest ih =>
    rw [insertDesc]
    by_cases h : key j ≤ key i
    · rw [if_pos h]
    · rw [if_neg h]
      exact (List.Perm.cons j ih).trans (List.Perm.swap i j rest)

theorem argsortDesc_perm (key : Nat → ℝ) (l : List Nat) :
    (argsortDesc key l).Perm l := by
  induction l with
  | nil => rfl
  | cons i rest ih =>
    exact (insertDesc_perm key i _).trans (List.Perm.cons i ih)

theorem insertDesc_sorted (key : Nat → ℝ) (i : Nat) (l : List Nat)
    (h : l.Pairwise (fun a b => key b ≤ key a)) :
    (insertDesc key i l).Pairwise (fun a b => key b ≤ key a) := by
  induction l with
  | nil => simp [insertDesc]
  | cons j rest ih =>
    rw [insertDesc]
    by_cases hij : key j ≤ key i
    · rw [if_pos hij]
      refine List.Pairwise.cons ?_ h
      intro b hb
      rcases List.mem_cons.mp hb with rfl | hb
      · exact hij
      · exact le_trans (List.rel_of_pairwise_cons h hb) hij
    · rw [if_neg hij]
      rcases List.pairwise_cons.mp h with ⟨hj, hrest⟩
      refine List.Pairwise.cons ?_ (ih hrest)
      intro b hb
      have hb' := (insertDesc_perm key i rest).mem_iff.mp hb
      rcases List.mem_cons.mp hb' with rfl | hb'
      · exact le_of_not_le hij
      · exact hj b hb'

theorem argsortDesc_sorted (key : Nat → ℝ) (l : List Nat) :
    (argsortDesc key l).Pairwise (fun a b => key b ≤ key a) := by
  induction l with
  | nil => exact List.Pairwise.nil
  | cons i rest ih => exact insertDesc_sorted key i _ ih

theorem topIndices_length (sims : List ℝ) (topK : Nat) :
    (topIndices sims topK).length = min sims.length (max 100 (5 * topK)) := by
  unfold topIndices
  rw [List.length_take,
    (argsortDesc_perm _ (List.range sims.length)).length_eq, List.length_range]
  exact min_eq_left (min_le_left _ _)

theorem topIndices_mem_lt (sims : List ℝ) (topK : Nat) :
    ∀ i ∈ topIndices sims topK, i < sims.length := by
  intro i hi
  have hi' := List.mem_of_mem_take hi
  exact List.mem_range.mp ((argsortDesc_perm _ _).mem_iff.mp hi')

theorem topIndices_sorted (sims : List ℝ) (topK : Nat) :
    (topIndices sims topK).Pairwise
      (fun a b => sims.getD b 0 ≤ sims.getD a 0) :=
  (argsortDesc_sorted (fun i => sims.getD i 0) (List.range sims.length)).sublist
    (List.take_sublist _ _)

theorem topIndices_dominant (sims : List ℝ) (topK : Nat) :
    ∀ i ∈ topIndices sims topK, ∀ j, j < sims.length →
      j ∉ topIndices sims topK → sims.getD j 0 ≤ sims.getD i 0 := by
  intro i hi j hj hjn
  set key := fun i => sims.getD i 0 with hkey
  set A := argsortDesc key (List.range sims.length) with hA
  set p := min sims.length (max 100 (5 * topK)) with hp
  have hsorted : A.Pairwise (fun a b => key b ≤ key a) := argsortDesc_sorted key _
  have hjA : j ∈ A :=
    (argsortDesc_perm key _).mem_iff.mpr (List.mem_range.mpr hj)
  have hsplit : A.take p ++ A.drop p = A := List.take_append_drop p A
  have hjdrop : j ∈ A.drop p := by
    rcases List.mem_append.mp (by rw [hsplit]; exact hjA) with htake | hdrop
    · exact absurd htake hjn
    · exact hdrop
  have := List.pairwise_append.mp (by rw [hsplit]; exact hsorted)
  exact this.2.2 i hi j hjdrop

/-! ## Claim C5 -/

/-- Claim C5: for every similarity array and topK, the candidate pool has
size min(n, max(100, 5 * topK)), contains only valid row indices, scores
at least as high as every row outside the pool, and is fully sorted
descending by similarity before the walk (predict_image walks exactly
this index list). -/
theorem claim_c5_pool_selection (sims : List ℝ) (topK : Nat) :
    (topIndices sims topK).length = min sims.length (max 100 (5 * topK))
    ∧ (∀ i ∈ topIndices sims topK, i < sims.length)
    ∧ (∀ i ∈ topIndices sims topK, ∀ j, j < sims.length →
        j ∉ topIndices sims topK → sims.getD j 0 ≤ sims.getD i 0)
    ∧ ((topIndices sims topK).map (fun i => sims.getD i 0)).Pairwise
        (fun a b => b ≤ a) :=
  ⟨topIndices_length sims topK, topIndices_mem_lt sims topK,
    topIndices_dominant sims topK,
    List.pairwise_map.mpr (topIndices_sorted sims topK)⟩

/-! ## Lemmas: dot products and norms -/

theorem dot_nil_left (v : List ℝ) : dot [] v = 0 := by
  cases v <;> rfl

theorem dot_nil_right (u : List ℝ) : dot u [] = 0 := by
  cases u <;> rfl

theorem dot_cons (a b : ℝ) (u v : List ℝ) :
    dot (a :: u) (b :: v) = a * b + dot u v := rfl

theorem dot_self_nonneg (v : List ℝ) : 0 ≤ dot v v := by
  induction v with
  | nil => simp [dot_nil_left]
  | cons a u ih =>
    rw [dot_cons]
    exact add_nonneg (mul_self_nonneg a) ih

theorem dot_self_eq_zero (v : List ℝ) (h : dot v v = 0) : ∀ x ∈ v, x = 0 := by
  induction v with
  | nil => simp
  | cons a u ih =>
    rw [dot_cons] at h
    have ha : a * a = 0 := by nlinarith [mul_self_nonneg a, dot_self_nonneg u]
    have hu : dot u u = 0 := by nlinarith [mul_self_nonneg a, dot_self_nonneg u]
    intro x hx
    rcases List.mem_cons.mp hx with rfl | hx
    · exact mul_self_eq_zero.mp ha
    · exact ih hu x hx

theorem dot_zero_left (u v : List ℝ) (h : ∀ x ∈ u, x = 0) : dot u v = 0 := by
  induction u generalizing v with
  | nil => exact dot_nil_left v
  | cons a u ih =>
    cases v with
    | nil => exact dot_nil_right _
    | cons b w =>
      rw [dot_cons, h a (List.mem_cons_self a u),
        ih w (fun x hx => h x (List.mem_cons_of_mem a hx))]
      ring

theorem dot_map_div_left (u v : List ℝ) (c : ℝ) :
    dot (u.map (fun x => x / c)) v = dot u v / c := by
  induction u generalizing v with
  | nil => simp [dot_nil_left]
  | cons a u ih =>
    cases v with
    | nil => simp [dot_nil_right]
    | cons b w =>
      simp only [List.map_cons, dot_cons, ih]
      ring

theorem dot_map_div_right (u v : List ℝ) (c : ℝ) :
    dot u (v.map (fun x => x / c)) = dot u v / c := by
  induction u generalizing v with
  | nil => simp [dot_nil_left]
  | cons a u ih =>
    cases v with
    | nil => simp [dot_nil_right]
    | cons b w =>
      simp only [List.map_cons, dot_cons, ih]
      ring

theorem dot_eq_sum (u v : List ℝ) (h : u.length = v.length) :
    dot u v = ∑ k ∈ Finset.range u.length, u.getD k 0 * v.getD k 0 := by
  induction u generalizing v with
  | nil => simp [dot_nil_left]
  | cons a u ih =>
    cases v with
    | nil => simp at h
    | cons b w =>
      simp only [List.length_cons] at h
      rw [dot_cons, List.length_cons, Finset.sum_range_succ']
      simp only [List.getD_cons_succ, List.getD_cons_zero]
      rw [ih w (Nat.succ_injective h)]
      ring

theorem dot_sq_le (u v : List ℝ) (h : u.length = v.length) :
    dot u v ^ 2 ≤ dot u u * dot v v := by
  rw [dot_eq_sum u v h, dot_eq_sum u u rfl, dot_eq_sum v v rfl, ← h]
  calc (∑ k ∈ Finset.range u.length, u.getD k 0 * v.getD k 0) ^ 2
      ≤ (∑ k ∈ Finset.range u.length, u.getD k 0 ^ 2)
          * ∑ k ∈ Finset.range u.length, v.getD k 0 ^ 2 :=
        Finset.sum_mul_sq_le_sq_mul_sq _ _ _
    _ = (∑ k ∈ Finset.range u.length, u.getD k 0 * u.getD k 0)
          * ∑ k ∈ Finset.range u.length, v.getD k 0 * v.getD k 0 := by
        simp [pow_two]

theorem l2norm_nonneg (v : List ℝ) : 0 ≤ l2norm v := Real.sqrt_nonneg _

theorem l2norm_eq_zero_iff (v : List ℝ) : l2norm v = 0 ↔ dot v v = 0 := by
  unfold l2norm
  rw [Real.sqrt_eq_zero (dot_self_nonneg v)]

theorem l2norm_mul_self (v : List ℝ) : l2norm v * l2norm v = dot v v :=
  Real.mul_self_sqrt (dot_self_nonneg v)

theorem abs_dot_le (u v : List ℝ) (h : u.length = v.length) :
    |dot u v| ≤ l2norm u * l2norm v := by
  rw [show |dot u v| = Real.sqrt (dot u v ^ 2) from (Real.sqrt_sq_eq_abs _).symm,
    l2norm, l2norm, ← Real.sqrt_mul (dot_self_nonneg u)]
  exact Real.sqrt_le_sqrt (dot_sq_le u v h)

/-! ## Claim C6 -/

/-- Claim C6: during cache normalization a row with zero L2 norm has its
norm clamped to 1, the row is stored unchanged as a zero vector, no
division by zero occurs, and the similarity of such a row against any
query is the degenerate value 0. -/
theorem claim_c6_zero_norm_row (v : List ℝ) (h : l2norm v = 0) :
    clampNorm v = 1 ∧ normalizeRow v = v ∧ (∀ x ∈ v, x = 0)
    ∧ ∀ q, dot (normalizeRow v) q = 0 := by
  have hz : ∀ x ∈ v, x = 0 := dot_self_eq_zero v ((l2norm_eq_zero_iff v).mp h)
  have hc : clampNorm v = 1 := by
    unfold clampNorm
    rw [if_pos h]
  have hn : normalizeRow v = v := by
    unfold normalizeRow
    rw [hc]
    simp
  refine ⟨hc, hn, hz, fun q => ?_⟩
  rw [hn]
  exact dot_zero_left v q hz

/-- Witness for claim C6 at the one-entry zero row. -/
theorem claim_c6_witness :
    l2norm [(0 : ℝ)] = 0
    ∧ (clampNorm [(0 : ℝ)] = 1 ∧ normalizeRow [(0 : ℝ)] = [(0 : ℝ)]
      ∧ (∀ x ∈ [(0 : ℝ)], x = 0) ∧ ∀ q, dot (normalizeRow [(0 : ℝ)]) q = 0) := by
  have h0 : l2norm [(0 : ℝ)] = 0 := by
    unfold l2norm
    norm_num [dot, Real.sqrt_zero]
  exact ⟨h0, claim_c6_zero_norm_row [(0 : ℝ)] h0⟩

/-! ## Lemmas: similarity bounds -/

theorem simsOf_bounded (rows : List (List ℝ)) (qf : List ℝ)
    (hq : l2norm qf ≠ 0) (hlen : ∀ r ∈ rows, r.length = qf.length) :
    ∀ s ∈ simsOf (rows.map normalizeRow) (normalizeVec qf), -1 ≤ s ∧ s ≤ 1 := by
  intro s hs
  unfold simsOf at hs
  rw [List.map_map] at hs
  obtain ⟨r, hr, rfl⟩ := List.mem_map.mp hs
  have hrlen := hlen r hr
  show -1 ≤ dot (normalizeRow r) (normalizeVec qf)
    ∧ dot (normalizeRow r) (normalizeVec qf) ≤ 1
  unfold normalizeRow normalizeVec
  rw [dot_map_div_left, dot_map_div_right, div_div]
  have hn_pos : 0 < l2norm qf := lt_of_le_of_ne (l2norm_nonneg qf) (Ne.symm hq)
  by_cases hzero : l2norm r = 0
  · have hz : ∀ x ∈ r, x = 0 :=
      dot_self_eq_zero r ((l2norm_eq_zero_iff r).mp hzero)
    rw [dot_zero_left r qf hz, zero_div]
    norm_num
  · have hc_eq : clampNorm r = l2norm r := by
      unfold clampNorm
      rw [if_neg hzero]
    have hc_pos : 0 < clampNorm r :=
      hc_eq ▸ lt_of_le_of_ne (l2norm_nonneg r) (Ne.symm hzero)
    have habs : |dot r qf / (l2norm qf * clampNorm r)| ≤ 1 := by
      rw [abs_div, abs_of_pos (mul_pos hn_pos hc_pos)]
      rw [div_le_one (mul_pos hn_pos hc_pos), hc_eq, mul_comm]
      exact abs_dot_le r qf hrlen
    exact abs_le.mp habs

theorem getD_bounded (sims : List ℝ) (h : ∀ s ∈ sims, -1 ≤ s ∧ s ≤ 1) (i : Nat) :
    -1 ≤ sims.getD i 0 ∧ sims.getD i 0 ≤ 1 := by
  by_cases hi : i < sims.length
  · rw [List.getD_eq_getElem sims 0 hi]
    exact h _ (List.getElem_mem hi)
  · rw [List.getD_eq_default sims 0 (Nat.le_of_not_lt hi)]
    norm_num

theorem walkCandidates_bounded (sims : List ℝ) (labels : List Int) (paths : List Str)
    (catalog : List Product) (images : List ProductImage) (store : Str) (topK : Nat)
    (is : List Nat) (acc final : List (Int × MatchEntry))
    (hs : ∀ i, -1 ≤ sims.getD i 0 ∧ sims.getD i 0 ≤ 1)
    (hacc : ∀ kv ∈ acc, -1 ≤ (kv.2).similarity ∧ (kv.2).similarity ≤ 1)
    (hok : walkCandidates sims labels paths catalog images store topK is acc
      = .ok final) :
    ∀ kv ∈ final, -1 ≤ (kv.2).similarity ∧ (kv.2).similarity ≤ 1 := by
  induction is generalizing acc with
  | nil =>
    rw [walkCandidates] at hok
    injection hok with h
    subst h
    exact hacc
  | cons idx rest ih =>
    rw [walkCandidates] at hok
    by_cases hstop : topK ≤ acc.length
    · rw [if_pos hstop] at hok
      injection hok with h
      subst h
      exact hacc
    · rw [if_neg hstop] at hok
      by_cases hseen : acc.any (fun kv => kv.1 == labels.getD idx 0) = true
      · rw [if_pos hseen] at hok
        exact ih acc hacc hok
      · rw [if_neg hseen] at hok
        cases hp : paths.get? idx with
        | none =>
          rw [hp] at hok
          exact absurd hok (by simp)
        | some path =>
          rw [hp] at hok
          simp only at hok
          cases hr : resolvePath catalog store path with
          | none =>
            rw [hr] at hok
            exact ih acc hacc hok
          | some p =>
            rw [hr] at hok
            refine ih _ ?_ hok
            intro kv hkv
            rcases List.mem_append.mp hkv with hold | hnew
            · exact hacc kv hold
            · have hkv1 : kv = (labels.getD idx 0,
                  mkMatchEntry images path (sims.getD idx 0) p) := by
                simpa using hnew
              subst hkv1
              exact hs idx

theorem walkCandidates_sorted (sims : List ℝ) (labels : List Int) (paths : List Str)
    (catalog : List Product) (images : List ProductImage) (store : Str) (topK : Nat)
    (is : List Nat) (acc final : List (Int × MatchEntry))
    (hp : ((acc.map (fun kv => (kv.2).similarity))
        ++ is.map (fun i => sims.getD i 0)).Pairwise (fun a b => b ≤ a))
    (hok : walkCandidates sims labels paths catalog images store topK is acc
      = .ok final) :
    (final.map (fun kv => (kv.2).similarity)).Pairwise (fun a b => b ≤ a) := by
  induction is generalizing acc with
  | nil =>
    rw [walkCandidates] at hok
    injection hok with h
    subst h
    simpa using hp
  | cons idx rest ih =>
    rw [walkCandidates] at hok
    rw [List.map_cons] at hp
    by_cases hstop : topK ≤ acc.length
    · rw [if_pos hstop] at hok
      injection hok with h
      subst h
      exact hp.sublist (List.sublist_append_left _ _)
    · rw [if_neg hstop] at hok
      by_cases hseen : acc.any (fun kv => kv.1 == labels.getD idx 0) = true
      · rw [if_pos hseen] at hok
        refine ih acc ?_ hok
        exact hp.sublist (List.Sublist.append_left (List.sublist_cons_self _ _) _)
      · rw [if_neg hseen] at hok
        cases hpth : paths.get? idx with
        | none =>
          rw [hpth] at hok
          exact absurd hok (by simp)
        | some path =>
          rw [hpth] at hok
          simp only at hok
          cases hr : resolvePath catalog store path with
          | none =>
            rw [hr] at hok
            refine ih acc ?_ hok
            exact hp.sublist (List.Sublist.append_left (List.sublist_cons_self _ _) _)
          | some p =>
            rw [hr] at hok
            refine ih _ ?_ hok
            have heq : ((acc ++ [(labels.getD idx 0,
                  mkMatchEntry images path (sims.getD idx 0) p)]).map
                    (fun kv => (kv.2).similarity))
                ++ rest.map (fun i => sims.getD i 0)
                = (acc.map (fun kv => (kv.2).similarity))
                  ++ sims.getD idx 0 :: rest.map (fun i => sims.getD i 0) := by
              simp [mkMatchEntry, List.map_append, List.append_assoc]
            rw [heq]
            exact hp

/-! ## Claim C3 -/

/-- Claim C3: every similarity reported by the visual search lies in the
interval of minus one to one, and the returned list is ordered descending
by similarity. -/
theorem claim_c3_bounded_and_sorted (exRes : Except Unit (List ℝ))
    (records : List RawRecord) (catalog : List Product)
    (images : List ProductImage) (store : Str) (topK : Nat) :
    (∀ m ∈ predict_image exRes records catalog images store topK,
      -1 ≤ m.similarity ∧ m.similarity ≤ 1)
    ∧ ((predict_image exRes records catalog images store topK).map
        (fun m => m.similarity)).Pairwise (fun a b => b ≤ a) := by
  rcases predict_image_cases exRes records catalog images store topK with
    hnil | ⟨qf, kvs, hq, hlen, hok, heq⟩
  · rw [hnil]
    exact ⟨by simp, by simp⟩
  · rw [heq]
    have hbnd := simsOf_bounded (get_all_features records).features qf hq hlen
    constructor
    · intro m hm
      obtain ⟨kv, hkv, rfl⟩ := List.mem_map.mp hm
      exact walkCandidates_bounded _ _ _ _ _ _ _ _ _ _
        (getD_bounded _ hbnd) (by simp) hok kv hkv
    · rw [List.map_map]
      refine walkCandidates_sorted _ _ _ _ _ _ _ _ _ _ ?_ hok
      simp only [List.map_nil, List.nil_append]
      exact List.pairwise_map.mpr (topIndices_sorted _ topK)

/-! ## Claim C2: counterexample -/

/-- Claim C2 counterexample: a cache holding two rows with identical unit
feature vectors, stored under the distinct feature labels 10 and 20, but
whose paths lie in the same label directory L_1, resolves both rows to
the single catalog product with database id 5; with the default topK of
20 the search returns two matches carrying the same resolved product
identity, refuting uniqueness by resolved product. -/
theorem claim_c2_counterexample :
    (predict_image (Except.ok [(1 : ℝ)]) recsDup [prodL] [] allStore 20).map
      (fun m => m.product_id) = [5, 5] := by
  have h_l2 : l2norm [(1 : ℝ)] = 1 := by
    unfold l2norm
    norm_num [dot_cons, dot_nil_left, Real.sqrt_one]
  have h_clamp : clampNorm [(1 : ℝ)] = 1 := by
    unfold clampNorm
    rw [h_l2]
    norm_num
  have h_nrow : normalizeRow [(1 : ℝ)] = [(1 : ℝ)] := by
    unfold normalizeRow
    rw [h_clamp]
    norm_num
  have h_nvec : normalizeVec [(1 : ℝ)] = [(1 : ℝ)] := by
    unfold normalizeVec
    rw [h_l2]
    norm_num
  have h_sims : simsOf (((get_all_features recsDup).features).map normalizeRow)
      (normalizeVec [(1 : ℝ)]) = [(1 : ℝ), 1] := by
    rw [show (get_all_features recsDup).features = [[(1 : ℝ)], [(1 : ℝ)]] from rfl,
      h_nvec]
    simp only [simsOf, List.map_cons, List.map_nil, h_nrow]
    norm_num [dot_cons, dot_nil_left]
  have h_top : topIndices (simsOf (((get_all_features recsDup).features).map
      normalizeRow) (normalizeVec [(1 : ℝ)])) 20 = [0, 1] := by
    rw [h_sims]
    unfold topIndices
    rw [show List.range ([(1 : ℝ), 1].length) = [0, 1] from rfl]
    norm_num [argsortDesc, insertDesc, List.getD_cons_succ, List.getD_cons_zero]
  have hbody : predictImageBody (Except.ok [(1 : ℝ)]) recsDup [prodL] [] allStore 20
      = (walkCandidates (simsOf (((get_all_features recsDup).features).map
          normalizeRow) (normalizeVec [(1 : ℝ)]))
          (get_all_features recsDup).labels (get_all_features recsDup).paths
          [prodL] [] allStore 20 [0, 1] []).map (fun kvs => kvs.map Prod.snd) := by
    rw [predictImageBody_okEq, if_neg (by decide : ¬ recsDup.length = 0)]
    unfold searchWithQuery
    rw [if_neg (by decide : ¬ ((get_all_features recsDup).features.length = 0))]
    rw [if_neg (show ¬ (l2norm [(1 : ℝ)] = 0) by rw [h_l2]; norm_num)]
    rw [if_neg (by decide : ¬ (((get_all_features recsDup).features.any
      (fun r => r.length ≠ [(1 : ℝ)].length)) = true))]
    unfold rankAndWalk
    rw [h_top]
  unfold predict_image
  rw [hbody]
  rfl

end ScrapeV2
